import Mathlib

/-!
Shallow embedding of `enterprise/signals/white_signals.py`: the diagonal
white-noise signal (`WhiteNoise`, `MeasurementNoise` with `efac_ndiag`) and the
epoch-correlated signal (`EcorrKernelNoise`) with its three covariance
representations (sherman-morrison, sparse, block).

Observation arrays are embedded as functions from the index type to the value
type; numpy float arithmetic is embedded over the reals.  A Python dict keyed
by selection-group keys is embedded as an association list
`List (String × _)` in insertion order; a parameter vector is embedded as the
accessor function `String → ℝ` (the role of `Signal.get(key, params)`).
`utils.create_quantization_matrix`, `utils.quant2ind` and `signal_base`
(`cache_call`, the `ShermanMorrison` / `BlockMatrix` wrappers, sparse matrix
containers) are not part of the given source tree; where their behaviour is
needed it is modelled from the spec, and each such definition says so in its
doc comment.
-/

namespace EnterpriseWS

/-- A Python `slice(start, stop)` of observation indices: the half-open index
range `[start, stop)` of one epoch, referring to positions in the full
observation array. -/
structure Slice where
  start : ℕ
  stop : ℕ
deriving DecidableEq, Repr

/-- Membership of a full-array index in a slice. -/
def inSlice (s : Slice) (i : ℕ) : Bool :=
  decide (s.start ≤ i ∧ i < s.stop)

/-- Number of observations in a slice (Python `slc.stop - slc.start`). -/
def sliceLen (s : Slice) : ℕ :=
  s.stop - s.start

/-- The per-epoch amplitude `10**(2*x)` applied to a log-amplitude parameter
value `x`, exactly as written in `_get_jvecs` and `_get_ndiag_sparse`. -/
noncomputable def ecorrAmp (x : ℝ) : ℝ :=
  (10 : ℝ) ^ ((2 : ℝ) * x)

/-- Lookup in the association list embedding of the `self._slices` dict:
the slice list stored for key `k` (empty if `k` is absent). -/
def slicesOf (L : List (String × List Slice)) (k : String) : List Slice :=
  (L.find? (fun kv => kv.1 == k)).elim [] Prod.snd

/-- Python `sorted(self._slices.keys())`: the keys of the dict in ascending
lexicographic order (insertion sort is stable, like Python sorted). -/
def sortedKeys (L : List (String × List Slice)) : List String :=
  List.insertionSort (· ≤ ·) (L.map Prod.fst)

/-- Embedding of `EcorrKernelNoise._get_jvecs`: concatenates, over keys in
sorted order, each key's slice list, and in parallel one amplitude
`10**(2*get(key, params))` repeated once per slice of that key. -/
noncomputable def get_jvecs (L : List (String × List Slice)) (params : String → ℝ) :
    List Slice × List ℝ :=
  (((sortedKeys L).map (fun k => slicesOf L k)).flatten,
   ((sortedKeys L).map
      (fun k => List.replicate (slicesOf L k).length (ecorrAmp (params k)))).flatten)

/-- The value returned by `_get_ndiag_sherman_morrison`:
`base.ShermanMorrison(jvec, slices)` carrying the amplitude vector and the
slice list. -/
structure ShermanMorrison where
  jvec : List ℝ
  slices : List Slice

/-- Embedding of `EcorrKernelNoise._get_ndiag_sherman_morrison`. -/
noncomputable def get_ndiag_sherman_morrison (L : List (String × List Slice))
    (params : String → ℝ) : ShermanMorrison :=
  ⟨(get_jvecs L params).2, (get_jvecs L params).1⟩

/-- The dense block `np.ones((nb, nb)) * jv` as a total function on indices,
zero outside the `nb × nb` range. -/
def onesMatrix (nb : ℕ) (jv : ℝ) : ℕ → ℕ → ℝ :=
  fun r c => if r < nb ∧ c < nb then jv else 0

/-- The value returned by `_get_ndiag_block`: `base.BlockMatrix(blocks, slices)`
carrying the dense per-epoch blocks and the slice list. -/
structure BlockMatrix where
  blocks : List (ℕ → ℕ → ℝ)
  slices : List Slice

/-- Embedding of `EcorrKernelNoise._get_ndiag_block`: one dense block
`np.ones((nb, nb)) * jv` per (amplitude, slice) pair. -/
noncomputable def get_ndiag_block (L : List (String × List Slice))
    (params : String → ℝ) : BlockMatrix :=
  ⟨((get_jvecs L params).2.zip (get_jvecs L params).1).map
      (fun p => onesMatrix (sliceLen p.2) p.1),
   (get_jvecs L params).1⟩

/-- A sparse (or dense) matrix over the full observation space, embedded as a
total entry function. -/
def MatrixF : Type :=
  ℕ → ℕ → ℝ

/-- The all-zero matrix: `scipy.sparse.csc_matrix((n, n))` has every entry
implicitly zero. -/
def csc_zero : MatrixF :=
  fun _ _ => 0

/-- The numpy assignment `Ns[slc, slc] = v`: every entry whose row and column
both lie in the slice becomes `v`, all other entries keep their value. -/
def assignSlice (M : MatrixF) (s : Slice) (v : ℝ) : MatrixF :=
  fun i j => if inSlice s i && inSlice s j then v else M i j

/-- Embedding of `EcorrKernelNoise._setup_sparse`: starting from the all-zero
sparse matrix, for each key and each of its slices of length greater than one,
assign `1.0` on the diagonal block of that slice. -/
def setup_sparse (L : List (String × List Slice)) : MatrixF :=
  L.foldl
    (fun M kv => kv.2.foldl
      (fun M2 s => if 1 < sliceLen s then assignSlice M2 s 1 else M2) M)
    csc_zero

/-- Embedding of `EcorrKernelNoise._get_ndiag_sparse`: for every parameter key
and each of its slices of length greater than one, overwrite that diagonal
block of the persistent sparse matrix `Ns` with `10**(2*get(p, params))`.
The iteration runs over all keys of the params dict on every call. -/
noncomputable def get_ndiag_sparse (L : List (String × List Slice))
    (params : String → ℝ) (Ns : MatrixF) : MatrixF :=
  L.foldl
    (fun M kv => kv.2.foldl
      (fun M2 s =>
        if 1 < sliceLen s then assignSlice M2 s (ecorrAmp (params kv.1)) else M2) M)
    Ns

/-- The three method names accepted by the `EcorrKernelNoise` factory. -/
def ecorrMethods : List String :=
  ["sherman-morrison", "block", "sparse"]

/-- Embedding of the `EcorrKernelNoise` factory body: the method name is
validated first, before the returned class (and hence any per-pulsar
quantization or sparse allocation done in its `__init__`/`_setup`) exists at
all; an unrecognized name raises `TypeError` with the given message.  The
successfully returned configuration carries exactly the requested method. -/
def EcorrKernelNoise (method : String) : Except String String :=
  if method ∈ ecorrMethods then Except.ok method
  else Except.error ("EcorrKernelNoise does not support method: " ++ method)

/-- Embedding of `WhiteNoise._do_selection` key order:
`self._keys = list(sorted(sel.masks.keys()))`. -/
def whiteNoiseKeys (masks : List (String × (ℕ → Bool))) : List String :=
  List.insertionSort (· ≤ ·) (masks.map Prod.fst)

/-- Embedding of `WhiteNoise.get_ndiag`: `ret = 0`, then for each key the
per-key variance vector times the boolean mask (numpy promotes `True` to `1.0`
and `False` to `0.0`) is accumulated into `ret`; evaluated at observation
index `i`. -/
def whiteGetNdiag (keys : List String) (mask : String → ℕ → Bool)
    (vfn : String → (String → ℝ) → ℕ → ℝ) (params : String → ℝ) (i : ℕ) : ℝ :=
  keys.foldl (fun ret k => ret + vfn k params i * (if mask k i then 1 else 0)) 0

/-- Embedding of the `efac_ndiag` variance function:
`efac**2 * toaerrs**2` elementwise. -/
def efac_ndiag (toaerrs : ℕ → ℝ) (efac : ℝ) : ℕ → ℝ :=
  fun i => efac ^ 2 * toaerrs i ^ 2

/-- The variance function `MeasurementNoise` binds per key: `efac_ndiag` with
the `efac` parameter resolved through that key's namespaced parameter name. -/
def measurementVfn (toaerrs : ℕ → ℝ) (pname : String → String) :
    String → (String → ℝ) → ℕ → ℝ :=
  fun k params => efac_ndiag toaerrs (params (pname k))

/-- Modelled from the spec: `base.cache_call` (in `signal_base`, not part of
the given source tree) memoizes a computation keyed on the values of the
parameters the signal owns; if the stored snapshot of owned-parameter values
equals the current one, the previously computed result is returned unchanged,
otherwise the result is recomputed and the snapshot updated.  Returns the new
cache state together with the returned value. -/
noncomputable def cache_call {R : Type} (owned : List String) (compute : (String → ℝ) → R)
    (st : Option (List ℝ × R)) (params : String → ℝ) : (List ℝ × R) × R :=
  match st with
  | some sr =>
      if sr.1 = owned.map params then (sr, sr.2)
      else ((owned.map params, compute params), compute params)
  | none => ((owned.map params, compute params), compute params)

/-- Modelled from the spec: the epoch-dropping step of
`utils.create_quantization_matrix(toas, nmin)` (not part of the given source
tree): of the candidate contiguous epochs produced by the external clustering
rule, exactly those whose size reaches the minimum count are kept, in order;
smaller epochs are dropped from the correlated structure entirely. -/
def quantize (raw : List Slice) (nmin : ℕ) : List Slice :=
  raw.filter (fun s => nmin ≤ sliceLen s)

/-- Spec-side reconstruction of the dense matrix denoted by the outer-product
(sherman-morrison) representation: for each epoch, amplitude times the outer
product of ones-vectors supported on the slice, summed over epochs. -/
def denseOfSM (r : ShermanMorrison) : MatrixF :=
  fun i j =>
    ((r.jvec.zip r.slices).map
      (fun p => if inSlice p.2 i && inSlice p.2 j then p.1 else 0)).sum

/-- Spec-side reconstruction of the dense matrix denoted by the block
representation: each dense block placed at its slice, summed over blocks. -/
def denseOfBlock (b : BlockMatrix) : MatrixF :=
  fun i j =>
    ((b.blocks.zip b.slices).map
      (fun p =>
        if p.2.start ≤ i && p.2.start ≤ j then p.1 (i - p.2.start) (j - p.2.start)
        else 0)).sum

/-- Whether the diagonal block of a (slice, value) pair covers cell `(i, j)`. -/
def covers (p : Slice × ℝ) (i j : ℕ) : Bool :=
  inSlice p.1 i && inSlice p.1 j

/-- The value of the first (slice, value) pair covering cell `(i, j)`, zero
when no pair covers it. -/
def coverValue (ps : List (Slice × ℝ)) (i j : ℕ) : ℝ :=
  ((ps.find? (fun p => covers p i j)).map Prod.snd).getD 0

/-- Perform a list of diagonal-block assignments on a matrix, left to right
(later writes overwrite earlier ones). -/
def writeList (ps : List (Slice × ℝ)) (M : MatrixF) : MatrixF :=
  ps.foldl (fun M2 p => assignSlice M2 p.1 p.2) M

/-- The ordered list of diagonal-block writes that one pass of the sparse
update loop performs: for each key of the dict in insertion order, each of its
slices of length greater than one, written with that key's value. -/
def sparseWrites (L : List (String × List Slice)) (vals : String → ℝ) :
    List (Slice × ℝ) :=
  L.flatMap (fun kv =>
    (kv.2.filter (fun s => 1 < sliceLen s)).map (fun s => (s, vals kv.1)))

/-- All slices stored for all keys, in dict insertion order. -/
def allSlices (L : List (String × List Slice)) : List Slice :=
  L.flatMap (fun kv => kv.2)

/-- All (slice, value) pairs of a slice dict with each slice paired with its
key's value, in dict insertion order. -/
def keyPairs (L : List (String × List Slice)) (vals : String → ℝ) :
    List (Slice × ℝ) :=
  L.flatMap (fun kv => kv.2.map (fun s => (s, vals kv.1)))

/-- The (slice, amplitude) pairs of a slice dict under a parameter vector, in
dict insertion order. -/
noncomputable def ampPairs (L : List (String × List Slice)) (params : String → ℝ) :
    List (Slice × ℝ) :=
  keyPairs L (fun k => ecorrAmp (params k))

/-- The (slice, amplitude) pairs of a slice dict under a parameter vector, in
sorted-key order with each key's slices in construction order: the pairing
realized by `get_jvecs`. -/
noncomputable def ampPairsSorted (L : List (String × List Slice))
    (params : String → ℝ) : List (Slice × ℝ) :=
  (sortedKeys L).flatMap
    (fun k => (slicesOf L k).map (fun s => (s, ecorrAmp (params k))))

/-- Two slices are disjoint when their index ranges do not intersect. -/
def sliceDisjoint (a b : Slice) : Prop :=
  a.stop ≤ b.start ∨ b.stop ≤ a.start

instance (a b : Slice) : Decidable (sliceDisjoint a b) :=
  inferInstanceAs (Decidable (_ ∨ _))

/-- Modelled from the spec: the local-to-full index scatter of the numpy
assignment `U[mask, cols] = Umat` in `EcorrKernelNoise.__init__`: the local
column entries are written, in order, at exactly the full-array rows where the
boolean mask is true; all other full-array rows hold zero. -/
def scatterCol : List Bool → List Bool → List Bool
  | [], _ => []
  | true :: ms, c :: cs => c :: scatterCol ms cs
  | true :: ms, [] => false :: scatterCol ms []
  | false :: ms, cs => false :: scatterCol ms cs

/-- The full-array positions of the true entries of a mask, in order: position
`j` is where the j-th observation of the selection group sits in the full
observation array. -/
def maskIndices : List Bool → List ℕ
  | [] => []
  | true :: ms => 0 :: (maskIndices ms).map (· + 1)
  | false :: ms => (maskIndices ms).map (· + 1)

/-- Modelled from the spec: `utils.quant2ind` (not part of the given source
tree) turns one full-length quantization column into the index range spanned
by its nonzero rows, positions counted in the full observation array. -/
def quant2indCol (col : List Bool) : Slice :=
  ⟨col.findIdx (fun b => b), col.length - col.reverse.findIdx (fun b => b)⟩

/-- Embedding of `EcorrKernelNoise.ndiag_params`: the names of the parameters
this signal owns, one log-amplitude parameter per selection key. -/
def ndiag_params (L : List (String × List Slice)) : List String :=
  L.map Prod.fst

/-- The per-key epoch structure built by `EcorrKernelNoise.__init__`, given
per key the candidate epochs of the external clustering rule: each key keeps
exactly the epochs of size at least 2
(`utils.create_quantization_matrix(psr.toas[mask], nmin=2)`). -/
def quantizeDict (Lraw : List (String × List Slice)) :
    List (String × List Slice) :=
  Lraw.map (fun kv => (kv.1, quantize kv.2 2))

/-- Concrete two-key epoch structure used by witnesses: key A with one epoch
of three observations, key B with one epoch of two observations. -/
def exL : List (String × List Slice) :=
  [("A", [⟨0, 3⟩]), ("B", [⟨4, 6⟩])]

/-- The same dict contents as `exL` in the opposite insertion order. -/
def exLswap : List (String × List Slice) :=
  [("B", [⟨4, 6⟩]), ("A", [⟨0, 3⟩])]

/-- Concrete one-key epoch structure used by witnesses. -/
def exL1 : List (String × List Slice) :=
  [("A", [⟨0, 3⟩])]

/-- Concrete selection mask set used by witnesses, inserted out of order. -/
def exMasks : List (String × (ℕ → Bool)) :=
  [("B", fun _ => true), ("A", fun i => i < 3)]

/-- Concrete parameter vector used by witnesses. -/
def exParams : String → ℝ :=
  fun _ => -7

/-- Concrete two-key epoch structure for the sparse frame-effect claim. -/
def exL4 : List (String × List Slice) :=
  [("A", [⟨0, 2⟩]), ("B", [⟨2, 4⟩])]

/-- First parameter vector of the frame-effect scenario. -/
def exP1 : String → ℝ :=
  fun k => if k = "A" then -7 else -8

/-- Second parameter vector of the frame-effect scenario: differs from `exP1`
only in key A. -/
def exP2 : String → ℝ :=
  fun k => if k = "A" then -6 else -8

/-- Concrete raw epoch structure with a size-1 epoch: key A clusters into one
epoch of three observations and one orphan observation at index 3. -/
def exRaw : List (String × List Slice) :=
  [("A", [⟨0, 3⟩, ⟨3, 4⟩]), ("B", [⟨4, 6⟩])]

/-- Concrete selection mask over four observations: the group holds the last
three of them. -/
def exMask9 : List Bool :=
  [false, true, true, true]

/-- Concrete group-local quantization column: the first two observations of
the group belong to the epoch. -/
def exCol9 : List Bool :=
  [true, true, false]

theorem inSlice_iff {s : Slice} {i : ℕ} :
    inSlice s i = true ↔ s.start ≤ i ∧ i < s.stop := by
  simp [inSlice]

theorem sliceDisjoint_not_both {a b : Slice} {i : ℕ} (h : sliceDisjoint a b)
    (ha : inSlice a i = true) (hb : inSlice b i = true) : False := by
  rw [inSlice_iff] at ha hb
  rcases h with h | h <;> omega

theorem covers_true_left {p : Slice × ℝ} {i j : ℕ} (hp : covers p i j = true) :
    inSlice p.1 i = true := by
  simp only [covers, Bool.and_eq_true] at hp
  exact hp.1

theorem covers_false_of_disj {p q : Slice × ℝ} {i j : ℕ}
    (h : sliceDisjoint p.1 q.1) (hp : covers p i j = true) :
    covers q i j = false := by
  cases hq : covers q i j
  · rfl
  · exact (sliceDisjoint_not_both h (covers_true_left hp)
      (covers_true_left hq)).elim

theorem writeList_cons (p : Slice × ℝ) (ps : List (Slice × ℝ)) (M : MatrixF) :
    writeList (p :: ps) M = writeList ps (assignSlice M p.1 p.2) :=
  rfl

theorem writeList_append (ps qs : List (Slice × ℝ)) (M : MatrixF) :
    writeList (ps ++ qs) M = writeList qs (writeList ps M) := by
  simp [writeList, List.foldl_append]

theorem writeList_not_covered {ps : List (Slice × ℝ)} {i j : ℕ}
    (h : ∀ p ∈ ps, covers p i j = false) (M : MatrixF) :
    writeList ps M i j = M i j := by
  induction ps generalizing M with
  | nil => rfl
  | cons p ps ih =>
      rw [writeList_cons, ih (fun q hq => h q (List.mem_cons_of_mem _ hq))]
      have hp : covers p i j = false := h p (List.mem_cons_self _ _)
      simp only [covers] at hp
      simp [assignSlice, hp]

theorem coverValue_head {a : Slice × ℝ} (ps : List (Slice × ℝ)) {i j : ℕ}
    (hc : covers a i j = true) :
    coverValue (a :: ps) i j = a.2 := by
  unfold coverValue
  rw [List.find?_cons_of_pos (p := fun q => covers q i j) ps hc]
  rfl

theorem coverValue_tail {a : Slice × ℝ} (ps : List (Slice × ℝ)) {i j : ℕ}
    (hc : covers a i j = false) :
    coverValue (a :: ps) i j = coverValue ps i j := by
  unfold coverValue
  rw [List.find?_cons_of_neg (p := fun q => covers q i j) ps
    (by simp only []; rw [hc]; exact Bool.false_ne_true)]

theorem writeList_eval {ps : List (Slice × ℝ)}
    (hd : List.Pairwise (fun p q => sliceDisjoint p.1 q.1) ps)
    (M : MatrixF) (i j : ℕ) :
    writeList ps M i j =
      if ps.any (fun p => covers p i j) then coverValue ps i j else M i j := by
  induction ps generalizing M with
  | nil => simp [writeList, coverValue]
  | cons a ps ih =>
      rcases List.pairwise_cons.mp hd with ⟨hp, hps⟩
      rw [writeList_cons]
      by_cases hc : covers a i j = true
      · have hn : ∀ q ∈ ps, covers q i j = false :=
          fun q hq => covers_false_of_disj (hp q hq) hc
        rw [writeList_not_covered hn]
        have hany : (a :: ps).any (fun q => covers q i j) = true := by
          simp [List.any_cons, hc]
        rw [hany, coverValue_head ps hc, if_pos rfl]
        have hc2 : (inSlice a.1 i && inSlice a.1 j) = true := hc
        simp [assignSlice, hc2]
      · have hcf : covers a i j = false := by
          cases hcc : covers a i j
          · rfl
          · exact absurd hcc hc
        rw [ih hps]
        have h1 : (a :: ps).any (fun q => covers q i j) =
            ps.any (fun q => covers q i j) := by
          simp [List.any_cons, hcf]
        rw [h1, coverValue_tail ps hcf]
        have hcf2 : (inSlice a.1 i && inSlice a.1 j) = false := hcf
        by_cases ha : ps.any (fun q => covers q i j) = true
        · rw [ha, if_pos rfl, if_pos rfl]
        · have haf : ps.any (fun q => covers q i j) = false := by
            cases hac : ps.any (fun q => covers q i j)
            · rfl
            · exact absurd hac ha
          rw [haf]
          simp [assignSlice, hcf2]

theorem coverSum_not_covered {ps : List (Slice × ℝ)} {i j : ℕ}
    (h : ∀ p ∈ ps, covers p i j = false) :
    ((ps.map (fun p => if covers p i j then p.2 else 0)).sum : ℝ) = 0 := by
  induction ps with
  | nil => rfl
  | cons a ps ih =>
      have hp : covers a i j = false := h a (List.mem_cons_self _ _)
      simp [hp, ih (fun q hq => h q (List.mem_cons_of_mem _ hq))]

theorem coverSum_eval {ps : List (Slice × ℝ)}
    (hd : List.Pairwise (fun p q => sliceDisjoint p.1 q.1) ps) (i j : ℕ) :
    ((ps.map (fun p => if covers p i j then p.2 else 0)).sum : ℝ) =
      if ps.any (fun p => covers p i j) then coverValue ps i j else 0 := by
  induction ps with
  | nil => simp [coverValue]
  | cons a ps ih =>
      rcases List.pairwise_cons.mp hd with ⟨hp, hps⟩
      by_cases hc : covers a i j = true
      · have hn : ∀ q ∈ ps, covers q i j = false :=
          fun q hq => covers_false_of_disj (hp q hq) hc
        have hany : (a :: ps).any (fun q => covers q i j) = true := by
          simp [List.any_cons, hc]
        rw [hany, coverValue_head ps hc, if_pos rfl]
        simp [hc, coverSum_not_covered hn]
      · have hcf : covers a i j = false := by
          cases hcc : covers a i j
          · rfl
          · exact absurd hcc hc
        have h1 : (a :: ps).any (fun q => covers q i j) =
            ps.any (fun q => covers q i j) := by
          simp [List.any_cons, hcf]
        rw [h1, coverValue_tail ps hcf]
        simp only [List.map_cons, List.sum_cons, hcf, Bool.false_eq_true,
          if_false, zero_add]
        exact ih hps

theorem coverValue_of_mem {ps : List (Slice × ℝ)}
    (hd : List.Pairwise (fun p q => sliceDisjoint p.1 q.1) ps)
    {s : Slice} {v : ℝ} {i j : ℕ}
    (hmem : (s, v) ∈ ps) (hc : covers (s, v) i j = true) :
    coverValue ps i j = v := by
  induction ps with
  | nil => cases hmem
  | cons a ps ih =>
      rcases List.pairwise_cons.mp hd with ⟨hp, hps⟩
      rcases List.mem_cons.mp hmem with he | hmem2
      · rw [← he]
        exact coverValue_head ps (he ▸ hc)
      · have hcf : covers a i j = false :=
          covers_false_of_disj
            (Or.elim (hp _ hmem2) (fun h => Or.inr h) (fun h => Or.inl h)) hc
        rw [coverValue_tail ps hcf]
        exact ih hps hmem2

theorem sliceDisjoint_symm {a b : Slice} (h : sliceDisjoint a b) :
    sliceDisjoint b a :=
  Or.elim h (fun h2 => Or.inr h2) (fun h2 => Or.inl h2)

theorem perm_any {l1 l2 : List (Slice × ℝ)} (p : Slice × ℝ → Bool)
    (h : List.Perm l1 l2) : l1.any p = l2.any p := by
  rcases Bool.eq_false_or_eq_true (l1.any p) with h1 | h1 <;> rw [h1]
  · rcases List.any_eq_true.mp h1 with ⟨a, ha, hpa⟩
    exact (List.any_eq_true.mpr ⟨a, h.mem_iff.mp ha, hpa⟩).symm
  · rcases Bool.eq_false_or_eq_true (l2.any p) with h2 | h2
    · exfalso
      rcases List.any_eq_true.mp h2 with ⟨a, ha, hpa⟩
      have h3 : l1.any p = true := List.any_eq_true.mpr ⟨a, h.mem_iff.mpr ha, hpa⟩
      rw [h1] at h3
      exact Bool.false_ne_true h3
    · exact h2.symm

theorem sliceFold_eq (sl : List Slice) (v : ℝ) (M : MatrixF) :
    sl.foldl (fun M2 s => if 1 < sliceLen s then assignSlice M2 s v else M2) M
      = writeList ((sl.filter (fun s => 1 < sliceLen s)).map (fun s => (s, v))) M := by
  induction sl generalizing M with
  | nil => rfl
  | cons s sl ih =>
      by_cases h : 1 < sliceLen s
      · have hdec : (decide (1 < sliceLen s)) = true := decide_eq_true h
        simp only [List.foldl_cons, if_pos h, List.filter_cons, hdec, if_true,
          List.map_cons, writeList_cons]
        exact ih _
      · have hdec : (decide (1 < sliceLen s)) = false := decide_eq_false h
        simp only [List.foldl_cons, if_neg h, List.filter_cons, hdec, if_false]
        exact ih _

theorem dictFold_eq (L : List (String × List Slice)) (vals : String → ℝ)
    (M : MatrixF) :
    L.foldl
      (fun M2 kv => kv.2.foldl
        (fun M3 s => if 1 < sliceLen s then assignSlice M3 s (vals kv.1) else M3)
        M2) M
      = writeList (sparseWrites L vals) M := by
  induction L generalizing M with
  | nil => rfl
  | cons kv L ih =>
      rw [List.foldl_cons, ih, sliceFold_eq]
      unfold sparseWrites
      rw [List.flatMap_cons, writeList_append]

theorem get_ndiag_sparse_eq_writeList (L : List (String × List Slice))
    (params : String → ℝ) (Ns : MatrixF) :
    get_ndiag_sparse L params Ns
      = writeList (sparseWrites L (fun k => ecorrAmp (params k))) Ns :=
  dictFold_eq L (fun k => ecorrAmp (params k)) Ns

theorem setup_sparse_eq_writeList (L : List (String × List Slice)) :
    setup_sparse L = writeList (sparseWrites L (fun _ => 1)) csc_zero :=
  dictFold_eq L (fun _ => 1) csc_zero

theorem keyPairs_fst (L : List (String × List Slice)) (vals : String → ℝ) :
    (keyPairs L vals).map Prod.fst = allSlices L := by
  unfold keyPairs allSlices
  rw [List.map_flatMap]
  apply List.flatMap_congr
  intro kv _
  rw [List.map_map]
  exact List.map_id _ ▸ (by simp [Function.comp])

theorem sparseWrites_sublist (L : List (String × List Slice)) (vals : String → ℝ) :
    List.Sublist (sparseWrites L vals) (keyPairs L vals) := by
  induction L with
  | nil => exact List.Sublist.refl _
  | cons kv L ih =>
      unfold sparseWrites keyPairs
      rw [List.flatMap_cons, List.flatMap_cons]
      exact ((List.filter_sublist _).map _).append ih

theorem pairwise_keyPairs {L : List (String × List Slice)} (vals : String → ℝ)
    (hdisj : List.Pairwise sliceDisjoint (allSlices L)) :
    List.Pairwise (fun p q : Slice × ℝ => sliceDisjoint p.1 q.1)
      (keyPairs L vals) := by
  have h : List.Pairwise sliceDisjoint ((keyPairs L vals).map Prod.fst) := by
    rw [keyPairs_fst]
    exact hdisj
  exact (List.pairwise_map).mp h

theorem pairwise_sparseWrites {L : List (String × List Slice)} (vals : String → ℝ)
    (hdisj : List.Pairwise sliceDisjoint (allSlices L)) :
    List.Pairwise (fun p q : Slice × ℝ => sliceDisjoint p.1 q.1)
      (sparseWrites L vals) :=
  List.Pairwise.sublist (sparseWrites_sublist L vals) (pairwise_keyPairs vals hdisj)

theorem any_covers_fst {ps qs : List (Slice × ℝ)}
    (h : ps.map Prod.fst = qs.map Prod.fst) (i j : ℕ) :
    ps.any (fun p => covers p i j) = qs.any (fun p => covers p i j) := by
  have key : ∀ rs : List (Slice × ℝ), rs.any (fun p => covers p i j)
      = (rs.map Prod.fst).any (fun s => inSlice s i && inSlice s j) := by
    intro rs
    induction rs with
    | nil => rfl
    | cons a rs ih =>
        simp only [List.any_cons, List.map_cons]
        rw [ih]
        rfl
  rw [key ps, key qs, h]

theorem replicate_zip {α β : Type} (a : α) (l : List β) :
    (List.replicate l.length a).zip l = l.map (fun s => (a, s)) := by
  induction l with
  | nil => rfl
  | cons b l ih => simp [List.replicate_succ, List.zip_cons_cons, ih]

theorem flatten_zip_rep (ks : List String) (g : String → List Slice)
    (a : String → ℝ) :
    (((ks.map (fun k => List.replicate (g k).length (a k))).flatten).zip
      ((ks.map g).flatten))
      = ks.flatMap (fun k => (g k).map (fun s => (a k, s))) := by
  induction ks with
  | nil => rfl
  | cons k ks ih =>
      simp only [List.map_cons, List.flatten_cons, List.flatMap_cons]
      rw [List.zip_append (by simp), replicate_zip, ih]

theorem denseOfSM_get (L : List (String × List Slice)) (params : String → ℝ)
    (i j : ℕ) :
    denseOfSM (get_ndiag_sherman_morrison L params) i j
      = ((ampPairsSorted L params).map
          (fun p => if covers p i j then p.2 else 0)).sum := by
  unfold denseOfSM get_ndiag_sherman_morrison get_jvecs ampPairsSorted
  rw [flatten_zip_rep, List.map_flatMap, List.map_flatMap]
  refine congrArg List.sum ?_
  apply List.flatMap_congr
  intro k _
  rw [List.map_map, List.map_map]
  apply List.map_congr_left
  intro s _
  simp [Function.comp, covers]

theorem slicesOf_eq {L : List (String × List Slice)}
    (hnd : (L.map Prod.fst).Nodup) {kv : String × List Slice} (h : kv ∈ L) :
    slicesOf L kv.1 = kv.2 := by
  induction L with
  | nil => cases h
  | cons hd2 tl ih =>
      have hnd1 : (hd2.1 :: tl.map Prod.fst).Nodup := by
        rw [List.map_cons] at hnd
        exact hnd
      rcases List.nodup_cons.mp hnd1 with ⟨hni, hnd2⟩
      rcases List.mem_cons.mp h with he | h2
      · rw [← he]
        unfold slicesOf
        rw [List.find?_cons_of_pos (p := fun x => x.1 == kv.1) tl
          (beq_self_eq_true kv.1)]
        rfl
      · have hne : ¬((fun x : String × List Slice => x.1 == kv.1) hd2 = true) := by
          intro hb
          exact hni (beq_iff_eq.mp hb ▸ List.mem_map_of_mem Prod.fst h2)
        unfold slicesOf
        rw [List.find?_cons_of_neg (p := fun x => x.1 == kv.1) tl hne]
        exact ih hnd2 h2

theorem ampPairsSorted_perm {L : List (String × List Slice)} (params : String → ℝ)
    (hnd : (L.map Prod.fst).Nodup) :
    List.Perm (ampPairsSorted L params) (ampPairs L params) := by
  unfold ampPairsSorted ampPairs keyPairs sortedKeys
  have h1 : List.Perm (List.insertionSort (· ≤ ·) (L.map Prod.fst))
      (L.map Prod.fst) := List.perm_insertionSort _ _
  have h2 := h1.flatMap_right
    (fun k => (slicesOf L k).map (fun s => (s, ecorrAmp (params k))))
  refine h2.trans ?_
  rw [List.flatMap_map]
  rw [List.flatMap_congr (fun kv hkv => by rw [slicesOf_eq hnd hkv])]

theorem sparseWrites_of_len {L : List (String × List Slice)} (vals : String → ℝ)
    (hlen : ∀ kv ∈ L, ∀ s ∈ kv.2, 1 < sliceLen s) :
    sparseWrites L vals = keyPairs L vals := by
  unfold sparseWrites keyPairs
  apply List.flatMap_congr
  intro kv hkv
  have hf : kv.2.filter (fun s => 1 < sliceLen s) = kv.2 :=
    List.filter_eq_self.mpr (fun s hs => by simp [hlen kv hkv s hs])
  rw [hf]

theorem blockSum_eq (jv : List ℝ) (sl : List Slice) (i j : ℕ) :
    ((((jv.zip sl).map (fun p => onesMatrix (sliceLen p.2) p.1)).zip sl).map
      (fun p => if p.2.start ≤ i && p.2.start ≤ j
        then p.1 (i - p.2.start) (j - p.2.start) else 0)).sum
      = ((jv.zip sl).map
          (fun p => if inSlice p.2 i && inSlice p.2 j then p.1 else 0)).sum := by
  induction jv generalizing sl with
  | nil => rfl
  | cons a jv ih =>
      cases sl with
      | nil => rfl
      | cons s sl =>
          simp only [List.zip_cons_cons, List.map_cons, List.sum_cons]
          rw [ih]
          congr 1
          unfold onesMatrix inSlice sliceLen
          simp only [Bool.and_eq_true, decide_eq_true_eq]
          split_ifs <;> first | rfl | (exfalso; omega)

theorem denseOfBlock_eq_SM (L : List (String × List Slice)) (params : String → ℝ)
    (i j : ℕ) :
    denseOfBlock (get_ndiag_block L params) i j
      = denseOfSM (get_ndiag_sherman_morrison L params) i j := by
  unfold denseOfBlock get_ndiag_block denseOfSM get_ndiag_sherman_morrison
  exact blockSum_eq _ _ i j

theorem sparse_final_eval (L : List (String × List Slice)) (params : String → ℝ)
    (i j : ℕ)
    (hdisj : List.Pairwise sliceDisjoint (allSlices L))
    (hlen : ∀ kv ∈ L, ∀ s ∈ kv.2, 1 < sliceLen s) :
    get_ndiag_sparse L params (setup_sparse L) i j
      = if (ampPairs L params).any (fun p => covers p i j)
          then coverValue (ampPairs L params) i j else 0 := by
  rw [get_ndiag_sparse_eq_writeList, setup_sparse_eq_writeList]
  rw [sparseWrites_of_len _ hlen, sparseWrites_of_len _ hlen]
  rw [writeList_eval (pairwise_keyPairs _ hdisj),
    writeList_eval (pairwise_keyPairs _ hdisj)]
  have hany : (keyPairs L (fun k => ecorrAmp (params k))).any
      (fun p => covers p i j)
      = (keyPairs L (fun _ => 1)).any (fun p => covers p i j) :=
    any_covers_fst (by rw [keyPairs_fst, keyPairs_fst]) i j
  by_cases h : (keyPairs L (fun k => ecorrAmp (params k))).any
      (fun p => covers p i j) = true
  · rw [h, if_pos rfl]
    have : (ampPairs L params).any (fun p => covers p i j) = true := h
    rw [this, if_pos rfl]
    rfl
  · have hf : (keyPairs L (fun k => ecorrAmp (params k))).any
        (fun p => covers p i j) = false := by
      cases hc : (keyPairs L (fun k => ecorrAmp (params k))).any
          (fun p => covers p i j)
      · rfl
      · exact absurd hc h
    have hf1 : (keyPairs L (fun _ : String => (1:ℝ))).any
        (fun p => covers p i j) = false := by rw [← hany]; exact hf
    have hfa : (ampPairs L params).any (fun p => covers p i j) = false := hf
    rw [hf, hf1, hfa]
    simp [csc_zero]

/-- C1: for every epoch-slice structure with distinct keys, pairwise-disjoint
slices and every epoch of size at least two (the structure the construction
produces under nmin=2 quantization with disjoint selection masks), and every
parameter vector, the dense matrices reconstructed from the three
representations returned by get_ndiag under sherman-morrison, sparse and
block agree element for element. -/
theorem ecorr_representations_agree (L : List (String × List Slice))
    (params : String → ℝ)
    (hnd : (L.map Prod.fst).Nodup)
    (hdisj : List.Pairwise sliceDisjoint (allSlices L))
    (hlen : ∀ kv ∈ L, ∀ s ∈ kv.2, 2 ≤ sliceLen s) :
    ∀ i j,
      denseOfSM (get_ndiag_sherman_morrison L params) i j
        = get_ndiag_sparse L params (setup_sparse L) i j
      ∧ denseOfSM (get_ndiag_sherman_morrison L params) i j
        = denseOfBlock (get_ndiag_block L params) i j := by
  intro i j
  have hlen1 : ∀ kv ∈ L, ∀ s ∈ kv.2, 1 < sliceLen s := hlen
  refine ⟨?_, (denseOfBlock_eq_SM L params i j).symm⟩
  rw [denseOfSM_get, sparse_final_eval L params i j hdisj hlen1]
  have hperm := ampPairsSorted_perm params hnd
  have hpwA : List.Pairwise (fun p q : Slice × ℝ => sliceDisjoint p.1 q.1)
      (ampPairs L params) := pairwise_keyPairs (fun k => ecorrAmp (params k)) hdisj
  have hsym : ∀ {p q : Slice × ℝ}, sliceDisjoint p.1 q.1 → sliceDisjoint q.1 p.1 :=
    fun h => sliceDisjoint_symm h
  have hpwS : List.Pairwise (fun p q : Slice × ℝ => sliceDisjoint p.1 q.1)
      (ampPairsSorted L params) := (hperm.pairwise_iff @hsym).mpr hpwA
  rw [coverSum_eval hpwS i j]
  rw [perm_any (fun p => covers p i j) hperm]
  by_cases h : (ampPairs L params).any (fun p => covers p i j) = true
  · rw [h, if_pos rfl, if_pos rfl]
    rcases List.any_eq_true.mp h with ⟨a, ha, hca⟩
    have haS : a ∈ ampPairsSorted L params := hperm.mem_iff.mpr ha
    rcases a with ⟨s, v⟩
    rw [coverValue_of_mem hpwS haS hca, coverValue_of_mem hpwA ha hca]
  · have hf : (ampPairs L params).any (fun p => covers p i j) = false := by
      cases hc : (ampPairs L params).any (fun p => covers p i j)
      · rfl
      · exact absurd hc h
    rw [hf]
    simp

/-- Closed witness for C1 at a concrete two-key structure. -/
theorem ecorr_representations_agree_witness :
    (exL.map Prod.fst).Nodup
    ∧ List.Pairwise sliceDisjoint (allSlices exL)
    ∧ (∀ kv ∈ exL, ∀ s ∈ kv.2, 2 ≤ sliceLen s)
    ∧ (denseOfSM (get_ndiag_sherman_morrison exL exParams) 0 1
        = get_ndiag_sparse exL exParams (setup_sparse exL) 0 1)
    ∧ (denseOfSM (get_ndiag_sherman_morrison exL exParams) 0 1
        = denseOfBlock (get_ndiag_block exL exParams) 0 1) :=
  ⟨by decide, by decide, by decide,
   (ecorr_representations_agree exL exParams (by decide) (by decide)
      (by decide) 0 1).1,
   (ecorr_representations_agree exL exParams (by decide) (by decide)
      (by decide) 0 1).2⟩

/-- C3: calling the EcorrKernelNoise factory with a method name other than
sherman-morrison, sparse or block fails with the configuration TypeError
before the signal class exists at all (so before any epoch quantization or
sparse allocation, which happen only when the returned class is instantiated
on a pulsar), and a recognized method name is never replaced by a default:
the configuration returned on success carries exactly the requested method. -/
theorem ecorr_factory_validates_method (method : String) :
    (method ∉ ecorrMethods →
      EcorrKernelNoise method
        = Except.error ("EcorrKernelNoise does not support method: " ++ method))
    ∧ (method ∈ ecorrMethods → EcorrKernelNoise method = Except.ok method) := by
  constructor
  · intro h
    unfold EcorrKernelNoise
    rw [if_neg h]
  · intro h
    unfold EcorrKernelNoise
    rw [if_pos h]

/-- Closed witness for C3: an unrecognized name fails, a recognized one is
kept verbatim. -/
theorem ecorr_factory_validates_method_witness :
    ("frobnicate" ∉ ecorrMethods
      ∧ EcorrKernelNoise "frobnicate"
          = Except.error
              ("EcorrKernelNoise does not support method: " ++ "frobnicate"))
    ∧ ("sparse" ∈ ecorrMethods
      ∧ EcorrKernelNoise "sparse" = Except.ok "sparse") :=
  ⟨⟨by decide, (ecorr_factory_validates_method "frobnicate").1 (by decide)⟩,
   ⟨by decide, (ecorr_factory_validates_method "sparse").2 (by decide)⟩⟩

theorem foldl_add_eq (f : String → ℝ) (keys : List String) (a : ℝ) :
    keys.foldl (fun r k => r + f k) a = a + (keys.map f).sum := by
  induction keys generalizing a with
  | nil => simp
  | cons k keys ih =>
      rw [List.foldl_cons, ih, List.map_cons, List.sum_cons]
      ring

theorem whiteGetNdiag_sum (keys : List String) (mask : String → ℕ → Bool)
    (vfn : String → (String → ℝ) → ℕ → ℝ) (params : String → ℝ) (i : ℕ) :
    whiteGetNdiag keys mask vfn params i
      = (keys.map (fun k => if mask k i then vfn k params i else 0)).sum := by
  unfold whiteGetNdiag
  rw [foldl_add_eq (fun k => vfn k params i * (if mask k i then 1 else 0)) keys 0,
    zero_add]
  apply congrArg List.sum
  apply List.map_congr_left
  intro k _
  by_cases h : mask k i = true
  · rw [if_pos h, if_pos h, mul_one]
  · have hf : mask k i = false := by
      cases hc : mask k i
      · rfl
      · exact absurd hc h
    rw [hf]
    simp

/-- C2: WhiteNoise.get_ndiag returns exactly the sum, over selection keys, of
that key's variance-contribution value elementwise-multiplied by that key's
boolean mask, so an index outside a key's mask receives zero contribution
from that key. -/
theorem white_noise_get_ndiag_masked_sum (keys : List String)
    (mask : String → ℕ → Bool) (vfn : String → (String → ℝ) → ℕ → ℝ)
    (params : String → ℝ) (i : ℕ) :
    whiteGetNdiag keys mask vfn params i
      = (keys.map (fun k => if mask k i then vfn k params i else 0)).sum :=
  whiteGetNdiag_sum keys mask vfn params i

/-- C6: in every representation the per-epoch amplitude applied for a key
whose log-amplitude parameter has value x is exactly 10^(2x) and is strictly
positive for every real x: every amplitude of the jvec shared by the
outer-product and block representations is of this form for its key and
positive, and so is every value the sparse update writes. -/
theorem ecorr_amplitude_positive (x : ℝ) (L : List (String × List Slice))
    (params : String → ℝ) :
    (ecorrAmp x = (10 : ℝ) ^ ((2 : ℝ) * x) ∧ 0 < ecorrAmp x)
    ∧ (∀ v ∈ (get_jvecs L params).2,
        ∃ k ∈ sortedKeys L, v = ecorrAmp (params k) ∧ 0 < v)
    ∧ (∀ w ∈ sparseWrites L (fun k => ecorrAmp (params k)),
        ∃ k ∈ L.map Prod.fst, w.2 = ecorrAmp (params k) ∧ 0 < w.2) := by
  have hpos : ∀ y : ℝ, 0 < ecorrAmp y :=
    fun y => Real.rpow_pos_of_pos (by norm_num) _
  refine ⟨⟨rfl, hpos x⟩, ?_, ?_⟩
  · intro v hv
    unfold get_jvecs at hv
    rcases List.mem_flatten.mp hv with ⟨l, hl, hvl⟩
    rcases List.mem_map.mp hl with ⟨k, hk, rfl⟩
    have hve : v = ecorrAmp (params k) := List.eq_of_mem_replicate hvl
    exact ⟨k, hk, hve, hve ▸ hpos _⟩
  · intro w hw
    unfold sparseWrites at hw
    rcases List.mem_flatMap.mp hw with ⟨kv, hkv, hwkv⟩
    rcases List.mem_map.mp hwkv with ⟨s, _, rfl⟩
    exact ⟨kv.1, List.mem_map_of_mem Prod.fst hkv, rfl, hpos _⟩

/-- Closed witness for C6 at a concrete structure, amplitude and key. -/
theorem ecorr_amplitude_positive_witness :
    0 < ecorrAmp (-7)
    ∧ ecorrAmp (exParams "A") ∈ (get_jvecs exL1 exParams).2
    ∧ ∃ k ∈ sortedKeys exL1,
        ecorrAmp (exParams "A") = ecorrAmp (exParams k)
          ∧ 0 < ecorrAmp (exParams "A") := by
  have h2 : (get_jvecs exL1 exParams).2 = [ecorrAmp (exParams "A")] := rfl
  have hmem : ecorrAmp (exParams "A") ∈ (get_jvecs exL1 exParams).2 := by
    rw [h2]
    exact List.mem_cons_self _ _
  exact ⟨(ecorr_amplitude_positive (-7) exL1 exParams).1.2, hmem,
    (ecorr_amplitude_positive (-7) exL1 exParams).2.1 _ hmem⟩

/-- C10: the MeasurementNoise signal's per-group variance contribution before
masking is the elementwise closed form efac^2 * toaerrs^2, with efac the
group's own parameter; inside get_ndiag each key contributes exactly that
closed form at indices its mask selects and zero elsewhere. -/
theorem measurement_noise_closed_form (toaerrs : ℕ → ℝ)
    (pname : String → String) (keys : List String) (mask : String → ℕ → Bool)
    (params : String → ℝ) (k : String) (i : ℕ) :
    measurementVfn toaerrs pname k params i
      = (params (pname k)) ^ 2 * (toaerrs i) ^ 2
    ∧ whiteGetNdiag keys mask (measurementVfn toaerrs pname) params i
      = (keys.map (fun g =>
          if mask g i then (params (pname g)) ^ 2 * (toaerrs i) ^ 2 else 0)).sum := by
  constructor
  · rfl
  · exact whiteGetNdiag_sum keys mask (measurementVfn toaerrs pname) params i

theorem nodup_key_unique {L : List (String × List Slice)}
    (hnd : (L.map Prod.fst).Nodup) {a b : String × List Slice}
    (ha : a ∈ L) (hb : b ∈ L) (hk : a.1 = b.1) : a = b := by
  induction L with
  | nil => cases ha
  | cons hd2 tl ih =>
      have hnd1 : (hd2.1 :: tl.map Prod.fst).Nodup := by
        rw [List.map_cons] at hnd
        exact hnd
      rcases List.nodup_cons.mp hnd1 with ⟨hni, hnd2⟩
      rcases List.mem_cons.mp ha with he | ha2
      · rcases List.mem_cons.mp hb with he2 | hb2
        · rw [he, he2]
        · exfalso
          apply hni
          rw [← he, hk]
          exact List.mem_map_of_mem Prod.fst hb2
      · rcases List.mem_cons.mp hb with he2 | hb2
        · exfalso
          apply hni
          rw [← he2, ← hk]
          exact List.mem_map_of_mem Prod.fst ha2
        · exact ih hnd2 ha2 hb2

theorem slicesOf_perm {L M : List (String × List Slice)}
    (hnd : (L.map Prod.fst).Nodup) (hperm : List.Perm L M) (k : String) :
    slicesOf L k = slicesOf M k := by
  cases hfl : L.find? (fun kv => kv.1 == k) with
  | none =>
      have hfm : M.find? (fun kv => kv.1 == k) = none := by
        rw [List.find?_eq_none] at hfl ⊢
        intro kv hkv
        exact hfl kv (hperm.mem_iff.mpr hkv)
      unfold slicesOf
      rw [hfl, hfm]
  | some kv =>
      have hkv_mem : kv ∈ L := List.mem_of_find?_eq_some hfl
      have hkv_key := List.find?_some hfl
      cases hfm : M.find? (fun kv => kv.1 == k) with
      | none =>
          exfalso
          rw [List.find?_eq_none] at hfm
          exact hfm kv (hperm.mem_iff.mp hkv_mem) hkv_key
      | some kv2 =>
          have h2mem : kv2 ∈ M := List.mem_of_find?_eq_some hfm
          have h2key := List.find?_some hfm
          have h2memL : kv2 ∈ L := hperm.mem_iff.mpr h2mem
          have heq : kv = kv2 :=
            nodup_key_unique hnd hkv_mem h2memL
              ((beq_iff_eq.mp hkv_key).trans (beq_iff_eq.mp h2key).symm)
          unfold slicesOf
          rw [hfl, hfm, heq]

/-- C7: selection-group keys are processed in lexicographically sorted order
everywhere keys are iterated: the diagonal signal's key list is sorted, the
key order realized by get_jvecs (shared by the outer-product and block
representations, with each key's epochs kept in construction order) is
sorted, and the get_jvecs output is independent of the dict insertion order,
so parameter naming and representation ordering are reproducible. -/
theorem keys_sorted_and_deterministic (masks : List (String × (ℕ → Bool)))
    (L M : List (String × List Slice)) (params : String → ℝ)
    (hnd : (L.map Prod.fst).Nodup) (hperm : List.Perm L M) :
    List.Sorted (· ≤ ·) (whiteNoiseKeys masks)
    ∧ List.Sorted (· ≤ ·) (sortedKeys L)
    ∧ get_jvecs L params = get_jvecs M params := by
  refine ⟨List.sorted_insertionSort _ _, List.sorted_insertionSort _ _, ?_⟩
  have hkeys : sortedKeys L = sortedKeys M :=
    @List.eq_of_perm_of_sorted String (· ≤ ·) _ _ _
      ((List.perm_insertionSort _ _).trans
        ((hperm.map Prod.fst).trans (List.perm_insertionSort _ _).symm))
      (List.sorted_insertionSort _ _) (List.sorted_insertionSort _ _)
  unfold get_jvecs
  rw [hkeys]
  have h1 : (sortedKeys M).map (fun k => slicesOf L k)
      = (sortedKeys M).map (fun k => slicesOf M k) :=
    List.map_congr_left (fun k _ => slicesOf_perm hnd hperm k)
  have h2 : (sortedKeys M).map
      (fun k => List.replicate (slicesOf L k).length (ecorrAmp (params k)))
      = (sortedKeys M).map
        (fun k => List.replicate (slicesOf M k).length (ecorrAmp (params k))) :=
    List.map_congr_left (fun k _ => by rw [slicesOf_perm hnd hperm k])
  rw [h1, h2]

/-- Closed witness for C7 at a concrete mask set and a concrete dict
permutation. -/
theorem keys_sorted_and_deterministic_witness :
    (exL.map Prod.fst).Nodup ∧ List.Perm exL exLswap
    ∧ List.Sorted (· ≤ ·) (whiteNoiseKeys exMasks)
    ∧ get_jvecs exL exParams = get_jvecs exLswap exParams := by
  have hperm : List.Perm exL exLswap := by
    unfold exL exLswap
    exact List.Perm.swap _ _ _
  exact ⟨by decide, hperm,
    (keys_sorted_and_deterministic exMasks exL exLswap exParams (by decide)
      hperm).1,
    (keys_sorted_and_deterministic exMasks exL exLswap exParams (by decide)
      hperm).2.2⟩

theorem get_jvecs_congr {L : List (String × List Slice)} {p1 p2 : String → ℝ}
    (hagree : ∀ k ∈ L.map Prod.fst, p1 k = p2 k) :
    get_jvecs L p1 = get_jvecs L p2 := by
  unfold get_jvecs
  have hk : ∀ k ∈ sortedKeys L, p1 k = p2 k := by
    intro k hkk
    exact hagree k ((List.perm_insertionSort _ _).mem_iff.mp hkk)
  have h2 : (sortedKeys L).map
      (fun k => List.replicate (slicesOf L k).length (ecorrAmp (p1 k)))
      = (sortedKeys L).map
        (fun k => List.replicate (slicesOf L k).length (ecorrAmp (p2 k))) :=
    List.map_congr_left (fun k hkk => by rw [hk k hkk])
  rw [h2]

theorem whiteGetNdiag_congr {keys : List String} {mask : String → ℕ → Bool}
    {vfn : String → (String → ℝ) → ℕ → ℝ} {pnames : String → List String}
    {p1 p2 : String → ℝ}
    (hv : ∀ k ∈ keys, ∀ q1 q2 : String → ℝ,
      (∀ nm ∈ pnames k, q1 nm = q2 nm) → vfn k q1 = vfn k q2)
    (hagreeW : ∀ k ∈ keys, ∀ nm ∈ pnames k, p1 nm = p2 nm) :
    whiteGetNdiag keys mask vfn p1 = whiteGetNdiag keys mask vfn p2 := by
  funext i
  rw [whiteGetNdiag_sum, whiteGetNdiag_sum]
  apply congrArg List.sum
  apply List.map_congr_left
  intro k hkk
  rw [hv k hkk p1 p2 (hagreeW k hkk)]

theorem sparseWrites_congr {L : List (String × List Slice)} {p1 p2 : String → ℝ}
    (hagree : ∀ k ∈ ndiag_params L, p1 k = p2 k) :
    sparseWrites L (fun k => ecorrAmp (p1 k))
      = sparseWrites L (fun k => ecorrAmp (p2 k)) := by
  unfold sparseWrites
  apply List.flatMap_congr
  intro kv hkv
  simp only [hagree kv.1 (List.mem_map_of_mem Prod.fst hkv)]

theorem get_ndiag_sparse_congr {L : List (String × List Slice)}
    {p1 p2 : String → ℝ} (hagree : ∀ k ∈ ndiag_params L, p1 k = p2 k)
    (Ns : MatrixF) :
    get_ndiag_sparse L p1 Ns = get_ndiag_sparse L p2 Ns := by
  rw [get_ndiag_sparse_eq_writeList, get_ndiag_sparse_eq_writeList,
    sparseWrites_congr hagree]

/-- C8: get_ndiag is deterministic and its cache is sound.  Parameter vectors
agreeing on every parameter the signal owns give equal results, and a call
whose owned-parameter snapshot matches the previous call returns the
previously computed result unchanged.  Stated for all three branches of the
ecorr dispatcher: the sherman-morrison and block representations read
parameters through get_jvecs, while the sparse update loop reads them
directly per key (self.get(p, params)); both computations depend only on the
per-key log-amplitudes of ndiag_params, and each is cached behind the same
snapshot check.  Also stated for the white-noise signal, whose owned
parameters are the ones its per-key variance functions read. -/
theorem get_ndiag_deterministic_and_cached
    (L : List (String × List Slice)) (p1 p2 : String → ℝ)
    (keys : List String) (mask : String → ℕ → Bool)
    (vfn : String → (String → ℝ) → ℕ → ℝ) (pnames : String → List String)
    (hagree : ∀ k ∈ ndiag_params L, p1 k = p2 k)
    (hv : ∀ k ∈ keys, ∀ q1 q2 : String → ℝ,
      (∀ nm ∈ pnames k, q1 nm = q2 nm) → vfn k q1 = vfn k q2)
    (hagreeW : ∀ k ∈ keys, ∀ nm ∈ pnames k, p1 nm = p2 nm) :
    get_jvecs L p1 = get_jvecs L p2
    ∧ (∀ Ns : MatrixF, get_ndiag_sparse L p1 Ns = get_ndiag_sparse L p2 Ns)
    ∧ (cache_call (ndiag_params L) (fun p => get_jvecs L p)
        (some ((ndiag_params L).map p1, get_jvecs L p1)) p2).2 = get_jvecs L p1
    ∧ (∀ Ns : MatrixF,
        (cache_call (ndiag_params L) (fun p => get_ndiag_sparse L p Ns)
          (some ((ndiag_params L).map p1, get_ndiag_sparse L p1 Ns)) p2).2
        = get_ndiag_sparse L p1 Ns)
    ∧ whiteGetNdiag keys mask vfn p1 = whiteGetNdiag keys mask vfn p2
    ∧ (cache_call (keys.flatMap pnames)
        (fun p => whiteGetNdiag keys mask vfn p)
        (some ((keys.flatMap pnames).map p1, whiteGetNdiag keys mask vfn p1))
        p2).2
      = whiteGetNdiag keys mask vfn p1 := by
  have hsnap : (ndiag_params L).map p1 = (ndiag_params L).map p2 :=
    List.map_congr_left hagree
  have hsnapW : (keys.flatMap pnames).map p1 = (keys.flatMap pnames).map p2 := by
    apply List.map_congr_left
    intro nm hnm
    rcases List.mem_flatMap.mp hnm with ⟨k, hkk, hnmk⟩
    exact hagreeW k hkk nm hnmk
  refine ⟨get_jvecs_congr hagree, fun Ns => get_ndiag_sparse_congr hagree Ns,
    ?_, fun Ns => ?_, whiteGetNdiag_congr hv hagreeW, ?_⟩
  · simp only [cache_call]
    rw [if_pos hsnap]
  · simp only [cache_call]
    rw [if_pos hsnap]
  · simp only [cache_call]
    rw [if_pos hsnapW]

/-- Closed witness for C8: the second parameter vector agrees with the first
on the owned parameters A and B but differs from it at the unowned name Z, so
the agreement hypothesis is exercised on a genuinely different vector. -/
theorem get_ndiag_deterministic_and_cached_witness :
    exP1 "Z" ≠ (fun k => if k = "Z" then (99 : ℝ) else exP1 k) "Z"
    ∧ (∀ k ∈ ndiag_params exL,
        exP1 k = (fun k => if k = "Z" then (99 : ℝ) else exP1 k) k)
    ∧ get_jvecs exL exP1
        = get_jvecs exL (fun k => if k = "Z" then (99 : ℝ) else exP1 k)
    ∧ get_ndiag_sparse exL exP1 csc_zero
        = get_ndiag_sparse exL (fun k => if k = "Z" then (99 : ℝ) else exP1 k)
            csc_zero
    ∧ (cache_call (ndiag_params exL) (fun p => get_jvecs exL p)
        (some ((ndiag_params exL).map exP1, get_jvecs exL exP1))
        (fun k => if k = "Z" then (99 : ℝ) else exP1 k)).2
      = get_jvecs exL exP1
    ∧ (cache_call (ndiag_params exL) (fun p => get_ndiag_sparse exL p csc_zero)
        (some ((ndiag_params exL).map exP1, get_ndiag_sparse exL exP1 csc_zero))
        (fun k => if k = "Z" then (99 : ℝ) else exP1 k)).2
      = get_ndiag_sparse exL exP1 csc_zero := by
  have hne : exP1 "Z" ≠ (fun k => if k = "Z" then (99 : ℝ) else exP1 k) "Z" := by
    have h1 : exP1 "Z" = -8 := rfl
    have h2 : (fun k => if k = "Z" then (99 : ℝ) else exP1 k) "Z" = 99 := rfl
    rw [h1, h2]
    norm_num
  have hagree : ∀ k ∈ ndiag_params exL,
      exP1 k = (fun k => if k = "Z" then (99 : ℝ) else exP1 k) k := by
    intro k hk
    rcases List.mem_cons.mp hk with rfl | hk2
    · rfl
    · rcases List.mem_cons.mp hk2 with rfl | hk3
      · rfl
      · cases hk3
  have hv : ∀ k ∈ ["A"], ∀ q1 q2 : String → ℝ,
      (∀ nm ∈ [k], q1 nm = q2 nm) →
      measurementVfn (fun _ => 1) (fun k => k) k q1
        = measurementVfn (fun _ => 1) (fun k => k) k q2 := by
    intro k _ q1 q2 hq
    funext i
    unfold measurementVfn efac_ndiag
    rw [hq k (List.mem_cons_self _ _)]
  have hagreeW : ∀ k ∈ ["A"], ∀ nm ∈ [k],
      exP1 nm = (fun k => if k = "Z" then (99 : ℝ) else exP1 k) nm := by
    intro k hk nm hnm
    rcases List.mem_cons.mp hk with rfl | hk2
    · rcases List.mem_cons.mp hnm with rfl | hnm2
      · rfl
      · cases hnm2
    · cases hk2
  have main := get_ndiag_deterministic_and_cached exL exP1
    (fun k => if k = "Z" then (99 : ℝ) else exP1 k) ["A"] (fun _ _ => true)
    (measurementVfn (fun _ => 1) (fun k => k)) (fun k => [k])
    hagree hv hagreeW
  exact ⟨hne, hagree, main.1, main.2.1 csc_zero, main.2.2.1,
    main.2.2.2.1 csc_zero⟩

/-- C4 counterexample: with two keys A and B and two parameter vectors that
differ only in key A, the second call of the sparse update still writes the
diagonal block of key B (the update loop runs over every parameter key on
every call), refuting the claim that only entries belonging to changed
parameters are written. -/
theorem sparse_update_rewrites_unchanged_key :
    exP1 "B" = exP2 "B" ∧ exP1 "A" ≠ exP2 "A"
    ∧ (Slice.mk 2 4, ecorrAmp (exP2 "B"))
        ∈ sparseWrites exL4 (fun k => ecorrAmp (exP2 k)) := by
  refine ⟨rfl, ?_, ?_⟩
  · have h1 : exP1 "A" = -7 := rfl
    have h2 : exP2 "A" = -6 := rfl
    rw [h1, h2]
    norm_num
  · unfold sparseWrites exL4
    simp [sliceLen]

/-- C4 amended: every call of the sparse update rewrites the diagonal block of
every key having epochs of length greater than one, not only the blocks of
changed parameters; but a key whose parameter value is unchanged is rewritten
with the identical value, so after two calls with parameter vectors differing
only in other keys, every entry belonging to key B is bit-identical across
both calls. -/
theorem sparse_unchanged_key_entries_stable
    (L : List (String × List Slice)) (p1 p2 : String → ℝ) (B : String)
    (bs : List Slice) (M0 : MatrixF) (s : Slice) (i j : ℕ)
    (hdisj : List.Pairwise sliceDisjoint (allSlices L))
    (hB : p1 B = p2 B)
    (hBmem : (B, bs) ∈ L) (hs : s ∈ bs) (hlen : 1 < sliceLen s)
    (hi : inSlice s i = true) (hj : inSlice s j = true) :
    get_ndiag_sparse L p2 (get_ndiag_sparse L p1 M0) i j
      = get_ndiag_sparse L p1 M0 i j
    ∧ get_ndiag_sparse L p1 M0 i j = ecorrAmp (p1 B) := by
  have hcov : covers (s, ecorrAmp (p1 B)) i j = true := by
    unfold covers
    rw [hi, hj]
    rfl
  have hval : ∀ p : String → ℝ, ∀ M : MatrixF,
      get_ndiag_sparse L p M i j = ecorrAmp (p B) := by
    intro p M
    have hw : (s, ecorrAmp (p B)) ∈ sparseWrites L (fun k => ecorrAmp (p k)) := by
      unfold sparseWrites
      apply List.mem_flatMap.mpr
      refine ⟨(B, bs), hBmem, ?_⟩
      apply List.mem_map.mpr
      refine ⟨s, ?_, rfl⟩
      apply List.mem_filter.mpr
      exact ⟨hs, decide_eq_true hlen⟩
    have hpw := pairwise_sparseWrites (fun k => ecorrAmp (p k)) hdisj
    have hany : (sparseWrites L (fun k => ecorrAmp (p k))).any
        (fun q => covers q i j) = true :=
      List.any_eq_true.mpr ⟨(s, ecorrAmp (p B)), hw, by
        unfold covers
        rw [hi, hj]
        rfl⟩
    rw [get_ndiag_sparse_eq_writeList, writeList_eval hpw, hany, if_pos rfl]
    exact coverValue_of_mem hpw hw (by unfold covers; rw [hi, hj]; rfl)
  refine ⟨?_, hval p1 M0⟩
  rw [hval p2 (get_ndiag_sparse L p1 M0), hval p1 M0, hB]

/-- Closed witness for the amended C4 at the concrete two-key scenario. -/
theorem sparse_unchanged_key_entries_stable_witness :
    List.Pairwise sliceDisjoint (allSlices exL4)
    ∧ exP1 "B" = exP2 "B"
    ∧ ("B", [Slice.mk 2 4]) ∈ exL4
    ∧ get_ndiag_sparse exL4 exP2 (get_ndiag_sparse exL4 exP1 csc_zero) 2 3
        = get_ndiag_sparse exL4 exP1 csc_zero 2 3 :=
  ⟨by decide, rfl, by decide,
   (sparse_unchanged_key_entries_stable exL4 exP1 exP2 "B" [Slice.mk 2 4]
      csc_zero (Slice.mk 2 4) 2 3 (by decide) rfl (by decide) (by decide)
      (by decide) (by decide) (by decide)).1⟩

theorem quantize_min {raw : List Slice} {nmin : ℕ} {t : Slice}
    (h : t ∈ quantize raw nmin) : nmin ≤ sliceLen t :=
  of_decide_eq_true (List.mem_filter.mp h).2

theorem quantize_sub {raw : List Slice} {nmin : ℕ} {t : Slice}
    (h : t ∈ quantize raw nmin) : t ∈ raw :=
  (List.mem_filter.mp h).1

theorem sparseWrites_len {M : List (String × List Slice)} {vals : String → ℝ}
    {w : Slice × ℝ} (h : w ∈ sparseWrites M vals) : 1 < sliceLen w.1 := by
  unfold sparseWrites at h
  rcases List.mem_flatMap.mp h with ⟨kv, _, hw⟩
  rcases List.mem_map.mp hw with ⟨s, hs, rfl⟩
  exact of_decide_eq_true (List.mem_filter.mp hs).2

theorem sparseWrites_mem_fst {M : List (String × List Slice)} {vals : String → ℝ}
    {w : Slice × ℝ} (h : w ∈ sparseWrites M vals) : w.1 ∈ allSlices M := by
  unfold sparseWrites at h
  rcases List.mem_flatMap.mp h with ⟨kv, hkv, hw⟩
  rcases List.mem_map.mp hw with ⟨s, hs, rfl⟩
  exact List.mem_flatMap.mpr ⟨kv, hkv, (List.mem_filter.mp hs).1⟩

theorem slicesOf_sub {L : List (String × List Slice)} {k : String} {s : Slice}
    (h : s ∈ slicesOf L k) : s ∈ allSlices L := by
  unfold slicesOf at h
  cases hf : L.find? (fun kv => kv.1 == k) with
  | none =>
      rw [hf] at h
      cases h
  | some kv =>
      rw [hf] at h
      exact List.mem_flatMap.mpr ⟨kv, List.mem_of_find?_eq_some hf, h⟩

theorem ampPairsSorted_fst_sub {L : List (String × List Slice)}
    {params : String → ℝ} {p : Slice × ℝ} (h : p ∈ ampPairsSorted L params) :
    p.1 ∈ allSlices L := by
  unfold ampPairsSorted at h
  rcases List.mem_flatMap.mp h with ⟨k, _, hp⟩
  rcases List.mem_map.mp hp with ⟨s, hs, rfl⟩
  exact slicesOf_sub hs

theorem mem_allSlices_quantizeDict {Lraw : List (String × List Slice)}
    {t : Slice} (h : t ∈ allSlices (quantizeDict Lraw)) :
    t ∈ allSlices Lraw ∧ 2 ≤ sliceLen t := by
  unfold allSlices quantizeDict at h
  rcases List.mem_flatMap.mp h with ⟨kv2, hkv2, ht⟩
  rcases List.mem_map.mp hkv2 with ⟨kv, hkv, rfl⟩
  exact ⟨List.mem_flatMap.mpr ⟨kv, hkv, quantize_sub ht⟩, quantize_min ht⟩

/-- C5: an epoch containing exactly one observation contributes zero to the
correlated covariance in all three representations: the quantizer (invoked
with minimum epoch size 2) keeps only epochs of size at least the minimum,
the sparse setup/update writes additionally touch only slices of length
greater than one, and at the index of a dropped size-1 epoch the row and
column of every reconstructed representation are identically zero. -/
theorem size_one_epochs_contribute_zero
    (Lraw : List (String × List Slice)) (params : String → ℝ)
    (kv : String × List Slice) (s1 : Slice) (i : ℕ)
    (hdisj : List.Pairwise sliceDisjoint (allSlices Lraw))
    (hkv : kv ∈ Lraw) (hs1 : s1 ∈ kv.2) (hone : sliceLen s1 = 1)
    (hi : inSlice s1 i = true) :
    (∀ raw : List Slice, ∀ nmin : ℕ, ∀ t ∈ quantize raw nmin,
      nmin ≤ sliceLen t)
    ∧ (∀ M : List (String × List Slice), ∀ vals : String → ℝ,
        ∀ w ∈ sparseWrites M vals, 1 < sliceLen w.1)
    ∧ (∀ j,
        denseOfSM (get_ndiag_sherman_morrison (quantizeDict Lraw) params) i j = 0
        ∧ denseOfSM (get_ndiag_sherman_morrison (quantizeDict Lraw) params) j i = 0
        ∧ denseOfBlock (get_ndiag_block (quantizeDict Lraw) params) i j = 0
        ∧ denseOfBlock (get_ndiag_block (quantizeDict Lraw) params) j i = 0
        ∧ get_ndiag_sparse (quantizeDict Lraw) params
            (setup_sparse (quantizeDict Lraw)) i j = 0
        ∧ get_ndiag_sparse (quantizeDict Lraw) params
            (setup_sparse (quantizeDict Lraw)) j i = 0) := by
  refine ⟨fun raw nmin t ht => quantize_min ht,
    fun M vals w hw => sparseWrites_len hw, ?_⟩
  have hs1all : s1 ∈ allSlices Lraw := List.mem_flatMap.mpr ⟨kv, hkv, hs1⟩
  have hsym : Symmetric sliceDisjoint := fun a b h => sliceDisjoint_symm h
  have hnotin : ∀ t ∈ allSlices (quantizeDict Lraw), inSlice t i = false := by
    intro t ht
    rcases mem_allSlices_quantizeDict ht with ⟨htraw, htlen⟩
    have hne : s1 ≠ t := by
      intro he
      rw [← he] at htlen
      omega
    have hdtj : sliceDisjoint s1 t :=
      List.Pairwise.forall hsym hdisj hs1all htraw hne
    cases hc : inSlice t i
    · rfl
    · exact (sliceDisjoint_not_both hdtj hi hc).elim
  have hcovSM : ∀ j, ∀ p ∈ ampPairsSorted (quantizeDict Lraw) params,
      covers p i j = false ∧ covers p j i = false := by
    intro j p hp
    have hpi : inSlice p.1 i = false := hnotin p.1 (ampPairsSorted_fst_sub hp)
    unfold covers
    rw [hpi]
    exact ⟨rfl, Bool.and_false _⟩
  have hcovW : ∀ j : ℕ, ∀ vals : String → ℝ,
      ∀ w ∈ sparseWrites (quantizeDict Lraw) vals,
      covers w i j = false ∧ covers w j i = false := by
    intro j vals w hw
    have hwi : inSlice w.1 i = false := hnotin w.1 (sparseWrites_mem_fst hw)
    unfold covers
    rw [hwi]
    exact ⟨rfl, Bool.and_false _⟩
  intro j
  have hSM1 : denseOfSM (get_ndiag_sherman_morrison (quantizeDict Lraw) params)
      i j = 0 := by
    rw [denseOfSM_get]
    exact coverSum_not_covered (fun p hp => (hcovSM j p hp).1)
  have hSM2 : denseOfSM (get_ndiag_sherman_morrison (quantizeDict Lraw) params)
      j i = 0 := by
    rw [denseOfSM_get]
    exact coverSum_not_covered (fun p hp => (hcovSM j p hp).2)
  have hsp : ∀ a b : ℕ,
      (∀ vals : String → ℝ, ∀ w ∈ sparseWrites (quantizeDict Lraw) vals,
        covers w a b = false) →
      get_ndiag_sparse (quantizeDict Lraw) params
        (setup_sparse (quantizeDict Lraw)) a b = 0 := by
    intro a b hcab
    rw [get_ndiag_sparse_eq_writeList, setup_sparse_eq_writeList]
    rw [writeList_not_covered (hcab _)]
    rw [writeList_not_covered (hcab _)]
    rfl
  exact ⟨hSM1, hSM2,
    (denseOfBlock_eq_SM _ params i j).trans hSM1,
    (denseOfBlock_eq_SM _ params j i).trans hSM2,
    hsp i j (fun vals w hw => (hcovW j vals w hw).1),
    hsp j i (fun vals w hw => (hcovW j vals w hw).2)⟩

/-- Closed witness for C5: the orphan observation at index 3 of key A has an
identically zero row in every representation. -/
theorem size_one_epochs_contribute_zero_witness :
    List.Pairwise sliceDisjoint (allSlices exRaw)
    ∧ ("A", [Slice.mk 0 3, Slice.mk 3 4]) ∈ exRaw
    ∧ sliceLen (Slice.mk 3 4) = 1
    ∧ inSlice (Slice.mk 3 4) 3 = true
    ∧ denseOfSM (get_ndiag_sherman_morrison (quantizeDict exRaw) exParams) 3 0 = 0
    ∧ get_ndiag_sparse (quantizeDict exRaw) exParams
        (setup_sparse (quantizeDict exRaw)) 3 0 = 0 := by
  have main := size_one_epochs_contribute_zero exRaw exParams
    ("A", [Slice.mk 0 3, Slice.mk 3 4]) (Slice.mk 3 4) 3 (by decide) (by decide)
    (by decide) (by decide) (by decide)
  exact ⟨by decide, by decide, by decide, by decide,
    (main.2.2 0).1, (main.2.2 0).2.2.2.2.1⟩

theorem scatterCol_mask {ms : List Bool} : ∀ (cs : List Bool) (i : ℕ),
    (scatterCol ms cs).getD i false = true → ms.getD i false = true := by
  induction ms with
  | nil =>
      intro cs i h
      rw [show scatterCol [] cs = [] from rfl] at h
      simp at h
  | cons m ms ih =>
      intro cs i h
      cases m
      · rw [show scatterCol (false :: ms) cs = false :: scatterCol ms cs from rfl]
          at h
        cases i with
        | zero => simp [List.getD_cons_zero] at h
        | succ n =>
            rw [List.getD_cons_succ] at h ⊢
            exact ih cs n h
      · cases cs with
        | nil =>
            rw [show scatterCol (true :: ms) [] = false :: scatterCol ms []
              from rfl] at h
            cases i with
            | zero => simp [List.getD_cons_zero] at h
            | succ n =>
                rw [List.getD_cons_succ] at h ⊢
                exact ih [] n h
        | cons c cs =>
            rw [show scatterCol (true :: ms) (c :: cs) = c :: scatterCol ms cs
              from rfl] at h
            cases i with
            | zero => rfl
            | succ n =>
                rw [List.getD_cons_succ] at h ⊢
                exact ih cs n h

theorem getD_map_add_one (l : List ℕ) (j : ℕ) (hj : j < l.length) :
    (l.map (· + 1)).getD j 0 = l.getD j 0 + 1 := by
  induction l generalizing j with
  | nil => cases hj
  | cons a l ih =>
      cases j with
      | zero => rfl
      | succ n =>
          rw [List.map_cons, List.getD_cons_succ, List.getD_cons_succ]
          exact ih n (Nat.lt_of_succ_lt_succ hj)

theorem scatterCol_index {ms : List Bool} : ∀ (cs : List Bool) (j : ℕ),
    j < cs.length → j < (maskIndices ms).length →
    (scatterCol ms cs).getD ((maskIndices ms).getD j 0) false
      = cs.getD j false := by
  induction ms with
  | nil =>
      intro cs j _ hjm
      rw [show maskIndices [] = [] from rfl] at hjm
      cases hjm
  | cons m ms ih =>
      intro cs j hj hjm
      cases m
      · rw [show maskIndices (false :: ms) = (maskIndices ms).map (· + 1)
          from rfl] at hjm ⊢
        rw [show scatterCol (false :: ms) cs = false :: scatterCol ms cs
          from rfl]
        rw [List.length_map] at hjm
        rw [getD_map_add_one _ j hjm, List.getD_cons_succ]
        exact ih cs j hj hjm
      · cases cs with
        | nil => cases hj
        | cons c cs =>
            rw [show scatterCol (true :: ms) (c :: cs) = c :: scatterCol ms cs
              from rfl]
            rw [show maskIndices (true :: ms)
              = 0 :: (maskIndices ms).map (· + 1) from rfl] at hjm ⊢
            cases j with
            | zero => rfl
            | succ n =>
                rw [List.getD_cons_succ, List.getD_cons_succ]
                rw [List.length_cons, List.length_map] at hjm
                have hn : n < (maskIndices ms).length := Nat.lt_of_succ_lt_succ hjm
                rw [getD_map_add_one _ n hn, List.getD_cons_succ]
                exact ih cs n (Nat.lt_of_succ_lt_succ hj) hn

/-- C9: every epoch index range stored in the slices dict references
positions in the full observation array.  The quantization column scattered
into the full index space by the boolean-mask assignment is nonzero only at
full-array positions where the mask holds, the j-th group-local observation
lands exactly at the j-th full-array mask position (index identity is
preserved even when selection groups interleave), and, under the quant2ind
contiguity contract, every index inside the stored slice satisfies the mask,
so slices are index-aligned with the diagonal masks and the full-size sparse
skeleton. -/
theorem slices_reference_full_array (ms cs : List Bool)
    (hcontig : ∀ i, inSlice (quant2indCol (scatterCol ms cs)) i = true →
      (scatterCol ms cs).getD i false = true) :
    (∀ i, (scatterCol ms cs).getD i false = true → ms.getD i false = true)
    ∧ (∀ j, j < cs.length → j < (maskIndices ms).length →
        (scatterCol ms cs).getD ((maskIndices ms).getD j 0) false
          = cs.getD j false)
    ∧ (∀ i, inSlice (quant2indCol (scatterCol ms cs)) i = true →
        ms.getD i false = true) :=
  ⟨fun i h => scatterCol_mask cs i h,
   fun j hj hjm => scatterCol_index cs j hj hjm,
   fun i h => scatterCol_mask cs i (hcontig i h)⟩

/-- Closed witness for C9 at a concrete mask and local column. -/
theorem slices_reference_full_array_witness :
    quant2indCol (scatterCol exMask9 exCol9) = Slice.mk 1 3
    ∧ (scatterCol exMask9 exCol9).getD ((maskIndices exMask9).getD 0 0) false
        = exCol9.getD 0 false
    ∧ (∀ i, inSlice (quant2indCol (scatterCol exMask9 exCol9)) i = true →
        exMask9.getD i false = true) := by
  have hq : quant2indCol (scatterCol exMask9 exCol9) = Slice.mk 1 3 := by decide
  have hcontig : ∀ i, inSlice (quant2indCol (scatterCol exMask9 exCol9)) i = true →
      (scatterCol exMask9 exCol9).getD i false = true := by
    intro i hi
    rw [hq, inSlice_iff] at hi
    rcases hi with ⟨h1, h2⟩
    interval_cases i
    · decide
    · decide
  have main := slices_reference_full_array exMask9 exCol9 hcontig
  exact ⟨hq, main.2.1 0 (by decide) (by decide), main.2.2⟩

end EnterpriseWS
